import Mathlib

/-!
Verification of the data-cleaning pipeline in `Automation/automation_app.py`.

The pipeline (`clean_data`) receives a table and applies five ordered stages:
header normalization, exact-duplicate removal, amount coercion, status
title-casing and date parsing with row filtering, returning the cleaned table
together with an ordered log of the stages that ran.

The embedding models a pandas DataFrame as a `Table`: an ordered list of
column names plus rows of dynamically typed cells.  Machine floats are
modelled as rationals (`Rat`); a Python `str`/`float` round trip on a finite
float is value preserving, which the model reflects by keeping numeric cells
exact.  Non-finite float literals (`inf`, `nan`) are modelled as unparseable,
which the claims never exercise.
-/

/-- A dynamically typed cell of the table: text, number, calendar date or
missing (pandas `NaN`/`None`/`NaT`). -/
inductive Cell where
  | text (s : String)
  | num (q : Rat)
  | date (d : Nat × Nat × Nat)
  | missing
deriving DecidableEq, Repr

/-- A table: ordered column names and rows of cells, positional.  A
well-formed table has every row of the same length as the header. -/
structure Table where
  headers : List String
  rows : List (List Cell)
deriving DecidableEq, Repr

/-- Row lengths match the header, as in a rectangular DataFrame. -/
def Table.WF (t : Table) : Prop :=
  ∀ r ∈ t.rows, r.length = t.headers.length

instance (t : Table) : Decidable t.WF := by
  unfold Table.WF; infer_instance

/-! ### Stage A: header normalization
`df.columns = df.columns.str.strip().str.lower().str.replace(' ', '_')`
(line 40).  Strip is modelled on the character list so that the proofs can
reason about it directly; `Char.isWhitespace` covers the whitespace the
inputs contain. -/

/-- Remove leading and trailing whitespace (Python `str.strip`). -/
def trimChars (l : List Char) : List Char :=
  ((l.dropWhile Char.isWhitespace).reverse.dropWhile Char.isWhitespace).reverse

/-- Lower-case one character then replace a space by an underscore
(`str.lower` followed by `str.replace(' ', '_')`, both character-wise). -/
def lowerUnderscore (c : Char) : Char :=
  if c.toLower = ' ' then '_' else c.toLower

/-- `str.strip().lower().replace(' ', '_')` applied to a column name. -/
def normalize_header (s : String) : String :=
  String.mk ((trimChars s.toList).map lowerUnderscore)

/-! ### Stage B: duplicate removal
`df = df.drop_duplicates()` (line 45): drop every row that is an exact
duplicate of an earlier row, keeping the first occurrence and the order of
the survivors (pandas default `keep='first'`). -/

/-- Walk the rows keeping a set of the rows already kept; drop a row that
was kept before, keep it otherwise (the keep-first hashing strategy of
`drop_duplicates`). -/
def dedupAux {α : Type} [DecidableEq α] (seen : List α) : List α → List α
  | [] => []
  | a :: l => if a ∈ seen then dedupAux seen l else a :: dedupAux (a :: seen) l

/-- Keep the first occurrence of each distinct element, in order. -/
def dedupF {α : Type} [DecidableEq α] (l : List α) : List α :=
  dedupAux [] l

/-- An equivalent reformulation of keep-first deduplication used in proofs:
keep the head and recurse on the tail purged of its copies. -/
def dedupFilter {α : Type} [DecidableEq α] : List α → List α
  | [] => []
  | a :: l => a :: dedupFilter (l.filter (fun b => b ≠ a))
termination_by l => l.length
decreasing_by
  simp only [List.length_cons]
  exact Nat.lt_succ_of_le (List.length_filter_le _ _)

/-! ### Stage C: amount coercion (lines 50-54)
`astype(str)`, then `str.replace(',', '')`, then `to_numeric(errors='coerce')`,
then `fillna(0)`.  On a numeric cell the `str` round trip is value
preserving; on text the commas are removed and the result parsed; a failed
parse or a missing cell ends as the number `0`. -/

/-- `str.replace(',', '', regex=True)`: the pattern is a literal comma. -/
def stripCommas (s : String) : String :=
  String.mk (s.toList.filter (fun c => c ≠ ','))

/-- Digits to a natural number, most significant first. -/
def digitsVal (l : List Char) : Nat :=
  l.foldl (fun acc c => 10 * acc + (c.toNat - 48)) 0

/-- Apply a leading minus sign. -/
def ratSigned (neg : Bool) (q : Rat) : Rat :=
  if neg then -q else q

/-- `pd.to_numeric(_, errors='coerce')` on one string: optional sign, then
digits with an optional fractional part (the decimal literals the inputs
contain); anything else coerces to `NaN`, i.e. `none`.  The value of
`i.f` digits is the rational `(i * 10 ^ len f + f) / 10 ^ len f`. -/
def toNumeric (s : String) : Option Rat :=
  let l := trimChars s.toList
  let sl : Bool × List Char :=
    match l with
    | '-' :: rest => (true, rest)
    | '+' :: rest => (false, rest)
    | _ => (false, l)
  match (sl.2).span Char.isDigit with
  | (ds, rest) =>
    match rest with
    | [] =>
      if ds.isEmpty then none
      else some (ratSigned sl.1 (mkRat (digitsVal ds) 1))
    | '.' :: fs =>
      if fs.all Char.isDigit ∧ ¬(ds.isEmpty ∧ fs.isEmpty) then
        some (ratSigned sl.1
          (mkRat (digitsVal ds * 10 ^ fs.length + digitsVal fs) (10 ^ fs.length)))
      else none
    | _ => none

/-- One cell of the amount column through lines 51-53.  A numeric cell
survives the `str` round trip with its value intact; a date cell prints as a
timestamp, which is not numeric; a missing cell prints as `"nan"`; in both
failure cases `to_numeric` yields `NaN` and `fillna(0)` turns it into `0`. -/
def coerceAmount : Cell → Cell
  | .num q => .num q
  | .text s =>
    match toNumeric (stripCommas s) with
    | some q => .num q
    | none => .num 0
  | .date _ => .num 0
  | .missing => .num 0

/-! ### Stage D: status title-casing (lines 57-59)
`df['status'] = df['status'].str.title()`.  Python `str.title` upper-cases a
letter that follows a non-letter and lower-cases a letter that follows a
letter: word boundaries sit at every non-letter character, not only at
whitespace.  The pandas `.str` accessor maps every non-string element
(numbers, dates, `NaN`) to `NaN`. -/

/-- `str.title`, scanning with the flag: was the previous character a letter. -/
def titleAux : Bool → List Char → List Char
  | _, [] => []
  | prev, c :: cs =>
    if c.isAlpha then
      (if prev then c.toLower else c.toUpper) :: titleAux true cs
    else
      c :: titleAux false cs

/-- Python `str.title` on a string. -/
def pyTitle (s : String) : String :=
  String.mk (titleAux false s.toList)

/-- One cell of the status column through `.str.title()`. -/
def statusTitle : Cell → Cell
  | .text s => .text (pyTitle s)
  | _ => .missing

/-! ### Stage E: date parsing and row filtering (lines 62-64)
`pd.to_datetime(df['date'], errors='coerce')` then `dropna(subset=['date'])`.
The parser models the formats the inputs contain (ISO `YYYY-MM-DD`, slashed
`MM/DD/YYYY` and `YYYY/MM/DD`, and `Mon D, YYYY`); pandas month-first
disambiguation is kept for the slashed form.  A numeric cell is modelled as
unparseable (pandas would read it as an epoch offset, which no claim
exercises). -/

def isLeap (y : Nat) : Bool :=
  (y % 4 = 0 ∧ y % 100 ≠ 0) ∨ y % 400 = 0

def daysInMonth (y m : Nat) : Nat :=
  if m = 2 then (if isLeap y then 29 else 28)
  else if m = 4 ∨ m = 6 ∨ m = 9 ∨ m = 11 then 30
  else 31

/-- Accept `(y, m, d)` only when it is a real calendar date. -/
def mkValidDate (y m d : Nat) : Option (Nat × Nat × Nat) :=
  if 1 ≤ m ∧ m ≤ 12 ∧ 1 ≤ d ∧ d ≤ daysInMonth y m then some (y, m, d) else none

/-- A whole field of one to `maxLen` digits (surrounding whitespace
ignored), as a number. -/
def numField (l : List Char) (maxLen : Nat) : Option Nat :=
  let t := trimChars l
  if 1 ≤ t.length ∧ t.length ≤ maxLen ∧ t.all Char.isDigit then
    some (digitsVal t)
  else none

/-- Split a character list at every occurrence of `sep` (like
`str.split(sep)` on a one-character separator). -/
def splitOnChar (sep : Char) : List Char → List (List Char)
  | [] => [[]]
  | c :: cs =>
    let r := splitOnChar sep cs
    if c = sep then [] :: r else (c :: r.headD []) :: r.tail

/-- English month names and their three-letter abbreviations. -/
def monthNames : List (String × Nat) :=
  [("jan", 1), ("feb", 2), ("mar", 3), ("apr", 4), ("may", 5), ("jun", 6),
   ("jul", 7), ("aug", 8), ("sep", 9), ("oct", 10), ("nov", 11), ("dec", 12),
   ("january", 1), ("february", 2), ("march", 3), ("april", 4), ("june", 6),
   ("july", 7), ("august", 8), ("september", 9), ("october", 10),
   ("november", 11), ("december", 12)]

def monthOfName (l : List Char) : Option Nat :=
  (monthNames.find? (fun p => p.1.toList = l.map Char.toLower)).map Prod.snd

/-- `pd.to_datetime` on one string (the formats the inputs contain). -/
def parseDateStr (s : String) : Option (Nat × Nat × Nat) :=
  let t := trimChars s.toList
  match splitOnChar '-' t with
  | [y, m, d] => do
    let yn ← numField y 4
    let mn ← numField m 2
    let dn ← numField d 2
    if (trimChars y).length = 4 then mkValidDate yn mn dn else none
  | _ =>
    match splitOnChar '/' t with
    | [a, b, c] => do
      if (trimChars a).length = 4 then
        let yn ← numField a 4
        let mn ← numField b 2
        let dn ← numField c 2
        mkValidDate yn mn dn
      else
        let mn ← numField a 2
        let dn ← numField b 2
        let yn ← numField c 4
        if (trimChars c).length = 4 then mkValidDate yn mn dn else none
    | _ =>
      match splitOnChar ',' t with
      | [md, y] => do
        match (splitOnChar ' ' (trimChars md)).filter (fun w => w ≠ []) with
        | [mon, d] => do
          let mn ← monthOfName mon
          let dn ← numField d 2
          let yn ← numField y 4
          if (trimChars y).length = 4 then mkValidDate yn mn dn else none
        | _ => none
      | _ => none

/-- `pd.to_datetime(_, errors='coerce')` on one cell: a datetime value is
kept, a string is parsed, everything else becomes `NaT` (`none`). -/
def parseDate : Cell → Option (Nat × Nat × Nat)
  | .date d => some d
  | .text s => parseDateStr s
  | _ => none

/-! ### Column operations and the pipeline -/

/-- Apply `f` to column `j` of every row (a pandas column assignment). -/
def mapCol (j : Nat) (f : Cell → Cell) (rows : List (List Cell)) :
    List (List Cell) :=
  rows.map (fun r => r.set j (f (r.getD j Cell.missing)))

/-- Line 63: `df['date'] = pd.to_datetime(df['date'], errors='coerce')`. -/
def toDatetimeCol (j : Nat) (rows : List (List Cell)) : List (List Cell) :=
  mapCol j (fun c => match parseDate c with
    | some d => Cell.date d
    | none => Cell.missing) rows

/-- Line 64: `df = df.dropna(subset=['date'])`. -/
def dropnaCol (j : Nat) (rows : List (List Cell)) : List (List Cell) :=
  rows.filter (fun r => r.getD j Cell.missing ≠ Cell.missing)

/-- The whole date stage, lines 63-64. -/
def dateStage (j : Nat) (rows : List (List Cell)) : List (List Cell) :=
  dropnaCol j (toDatetimeCol j rows)

/-- The header after stage A. -/
def normHeaders (t : Table) : List String :=
  t.headers.map normalize_header

/-- Position of the amount column in the normalized header. -/
def amountIdx (t : Table) : Nat := (normHeaders t).indexOf "amount"

/-- Position of the status column in the normalized header. -/
def statusIdx (t : Table) : Nat := (normHeaders t).indexOf "status"

/-- Position of the date column in the normalized header. -/
def dateIdx (t : Table) : Nat := (normHeaders t).indexOf "date"

/-- Lines 50-52: the amount stage runs only when an `amount` column exists
after header normalization; otherwise it is skipped. -/
def stageAmount (hs : List String) (rows : List (List Cell)) : List (List Cell) :=
  if "amount" ∈ hs then mapCol (hs.indexOf "amount") coerceAmount rows else rows

/-- Lines 57-58: the status stage runs only when a `status` column exists. -/
def stageStatus (hs : List String) (rows : List (List Cell)) : List (List Cell) :=
  if "status" ∈ hs then mapCol (hs.indexOf "status") statusTitle rows else rows

/-- Lines 62-64: the date stage runs only when a `date` column exists. -/
def stageDate (hs : List String) (rows : List (List Cell)) : List (List Cell) :=
  if "date" ∈ hs then dateStage (hs.indexOf "date") rows else rows

/-- The row pipeline of `clean_data`: dedup, then amount, status and date
stages, in source order (lines 43-64). -/
def cleanRows (hs : List String) (rows : List (List Cell)) : List (List Cell) :=
  stageDate hs (stageStatus hs (stageAmount hs (dedupF rows)))

/-- The log of `clean_data`: one line per stage that ran, in stage order;
the header and dedup stages always run, the three column stages only when
their column exists (lines 41, 47, 54, 59, 65). -/
def cleanLog (hs : List String) (rows : List (List Cell)) : List String :=
  ["✅ Standardized column headers (lowercase, no spaces).",
   "✅ Removed " ++ toString (rows.length - (dedupF rows).length) ++ " duplicate rows."]
  ++ (if "amount" ∈ hs then
        ["✅ Cleaned \x27Amount\x27 column (removed commas, converted text to numbers)."]
      else [])
  ++ (if "status" ∈ hs then
        ["✅ Standardized \x27Status\x27 column casing."]
      else [])
  ++ (if "date" ∈ hs then
        ["✅ Parsed mixed Date formats into ISO standard (YYYY-MM-DD)."]
      else [])

/-- The pipeline `clean_data` (lines 36-67): header normalization, duplicate
removal, amount coercion, status title-casing, date parsing with row
filtering; each stage that runs appends one log line. -/
def clean_data (t : Table) : Table × List String :=
  (⟨normHeaders t, cleanRows (normHeaders t) t.rows⟩,
   cleanLog (normHeaders t) t.rows)

/-- The state of the argument object after `clean_data` returns: line 40
assigns to `df.columns` on the caller-supplied frame itself, renaming its
columns in place; every later statement rebinds `df` to a fresh frame, so
the rows of the argument are untouched. -/
def clean_data_argAfter (t : Table) : Table :=
  ⟨normHeaders t, t.rows⟩

/-- The call site (line 98): `clean_data(df_raw.copy())` — the caller passes
a copy, so the mutation of line 40 lands on the copy. -/
def clean_data_callSite (df_raw : Table) : Table × List String :=
  clean_data df_raw

/-! ### Definitions taken from the claims, for comparison with the source -/

def keepFirstAux {α : Type} [DecidableEq α] (earlier : List α) : List α → List α
  | [] => []
  | a :: l =>
    if a ∈ earlier then keepFirstAux (earlier ++ [a]) l
    else a :: keepFirstAux (earlier ++ [a]) l

/-- The deduplication contract in the claim wording: walk the rows in order
and drop a row exactly when it is an exact duplicate of an earlier row of
the table, keeping the first occurrence.  (The implementation tracks only
the kept rows; this spec tracks every earlier row.) -/
def keepFirstSpec {α : Type} [DecidableEq α] (l : List α) : List α :=
  keepFirstAux [] l

/-- Title case as worded in the claim: the first letter of each
whitespace-separated word capitalized, the remaining letters of the word
lowercased.  (Python `str.title` differs: it also starts a new word at every
non-letter character.) -/
def titleWsAux : Bool → List Char → List Char
  | _, [] => []
  | atStart, c :: cs =>
    if c.isWhitespace then c :: titleWsAux true cs
    else (if atStart then c.toUpper else c.toLower) :: titleWsAux false cs

def titleSpecWs (s : String) : String :=
  String.mk (titleWsAux true s.toList)

/-! ### Concrete tables used to settle the claims -/

/-- Two distinct text amounts that coerce to the same number. -/
def tDupAmount : Table :=
  ⟨["amount"], [[Cell.text "1,000"], [Cell.text "1000"]]⟩

/-- Another pair of distinct text amounts coercing to the same number. -/
def tDupAmount2 : Table :=
  ⟨["amount"], [[Cell.text "2,500"], [Cell.text "2500"]]⟩

/-- A status value whose Python title case and whitespace title case differ. -/
def tSemiPaid : Table :=
  ⟨["status"], [[Cell.text "semi-paid"]]⟩

/-- A fifty-row table with its first five rows appended again as exact
duplicates (the demo generator scenario). -/
def tFifty : Table :=
  ⟨["transaction_id"],
   (List.range 50).map (fun i => [Cell.num i]) ++
   (List.range 5).map (fun i => [Cell.num i])⟩

/-- A small well-formed table exercising every stage, used as a witness. -/
def tWitness : Table :=
  ⟨[" Customer Name ", "Amount", "Status", "Date"],
   [[Cell.text "a", Cell.text "1,000", Cell.text "PAID", Cell.text "2024-01-01"],
    [Cell.text "b", Cell.missing, Cell.text "pending", Cell.missing],
    [Cell.text "a", Cell.text "1,000", Cell.text "PAID", Cell.text "2024-01-01"]]⟩

/-! ### Character-level lemmas -/

theorem char_toNat_ofNat_of_lt {m : Nat} (h : m < 55296) : (Char.ofNat m).toNat = m := by
  rw [Char.ofNat, dif_pos (Or.inl h)]
  simp [Char.ofNatAux, Char.toNat, UInt32.toNat, UInt32.ofNat', BitVec.toNat_ofNatLt]

theorem char_eq_iff_toNat {c d : Char} : c = d ↔ c.toNat = d.toNat :=
  ⟨fun h => by rw [h], fun h => by rw [← Char.ofNat_toNat c, ← Char.ofNat_toNat d, h]⟩

theorem toNat_toLower (c : Char) :
    c.toLower.toNat = if 65 ≤ c.toNat ∧ c.toNat ≤ 90 then c.toNat + 32 else c.toNat := by
  unfold Char.toLower
  by_cases h : 65 ≤ c.toNat ∧ c.toNat ≤ 90
  · rw [if_pos h, if_pos h]
    exact char_toNat_ofNat_of_lt (by omega)
  · rw [if_neg h, if_neg h]

theorem toNat_toUpper (c : Char) :
    c.toUpper.toNat = if 97 ≤ c.toNat ∧ c.toNat ≤ 122 then c.toNat - 32 else c.toNat := by
  unfold Char.toUpper
  by_cases h : 97 ≤ c.toNat ∧ c.toNat ≤ 122
  · rw [if_pos h, if_pos h]
    exact char_toNat_ofNat_of_lt (by omega)
  · rw [if_neg h, if_neg h]

theorem isWhitespace_iff (c : Char) :
    c.isWhitespace = true ↔
      c.toNat = 32 ∨ c.toNat = 9 ∨ c.toNat = 13 ∨ c.toNat = 10 := by
  have h1 : (' ').toNat = 32 := rfl
  have h2 : ('\t').toNat = 9 := rfl
  have h3 : ('\r').toNat = 13 := rfl
  have h4 : ('\n').toNat = 10 := rfl
  simp only [Char.isWhitespace, Bool.or_eq_true, decide_eq_true_eq,
    char_eq_iff_toNat, h1, h2, h3, h4]
  omega

theorem isAlpha_iff (c : Char) :
    c.isAlpha = true ↔
      (65 ≤ c.toNat ∧ c.toNat ≤ 90) ∨ (97 ≤ c.toNat ∧ c.toNat ≤ 122) := by
  simp only [Char.isAlpha, Char.isUpper, Char.isLower, Bool.or_eq_true,
    Bool.and_eq_true, decide_eq_true_eq, UInt32.le_def, BitVec.le_def]
  have hv : c.val.toBitVec.toNat = c.toNat := rfl
  rw [hv]
  norm_num

theorem toLower_toLower (c : Char) : c.toLower.toLower = c.toLower := by
  rw [char_eq_iff_toNat, toNat_toLower c.toLower, toNat_toLower c]
  split_ifs <;> omega

theorem toUpper_toUpper (c : Char) : c.toUpper.toUpper = c.toUpper := by
  rw [char_eq_iff_toNat, toNat_toUpper c.toUpper, toNat_toUpper c]
  split_ifs <;> omega

theorem isAlpha_toLower (c : Char) : c.toLower.isAlpha = c.isAlpha := by
  rw [Bool.eq_iff_iff, isAlpha_iff, isAlpha_iff, toNat_toLower]
  split_ifs <;> omega

theorem isAlpha_toUpper (c : Char) : c.toUpper.isAlpha = c.isAlpha := by
  rw [Bool.eq_iff_iff, isAlpha_iff, isAlpha_iff, toNat_toUpper]
  split_ifs <;> omega

theorem lowerUnderscore_idem (c : Char) :
    lowerUnderscore (lowerUnderscore c) = lowerUnderscore c := by
  unfold lowerUnderscore
  by_cases h : c.toLower = ' '
  · rw [if_pos h]; decide
  · rw [if_neg h, toLower_toLower, if_neg h]

theorem lowerUnderscore_not_ws {c : Char} (h : c.isWhitespace = false) :
    (lowerUnderscore c).isWhitespace = false := by
  have hc : ¬(c.toNat = 32 ∨ c.toNat = 9 ∨ c.toNat = 13 ∨ c.toNat = 10) := by
    intro hh
    exact absurd ((isWhitespace_iff c).2 hh) (by simp [h])
  unfold lowerUnderscore
  by_cases hsp : c.toLower = ' '
  · rw [if_pos hsp]; decide
  · rw [if_neg hsp]
    rw [← Bool.not_eq_true, isWhitespace_iff, toNat_toLower]
    split_ifs <;> omega

/-! ### Trim and header-normalization lemmas -/

theorem dropWhile_eq_self_of_head {α : Type} (p : α → Bool) (l : List α)
    (h : ∀ a ∈ l.head?, p a = false) : l.dropWhile p = l := by
  cases l with
  | nil => rfl
  | cons a l =>
    have ha : p a = false := h a (by simp)
    simp [List.dropWhile_cons, ha]

theorem head?_trimChars_not_ws (l : List Char) :
    ∀ a ∈ (trimChars l).head?, a.isWhitespace = false := by
  intro a ha
  unfold trimChars at ha
  rw [List.head?_reverse] at ha
  set X := ((l.dropWhile Char.isWhitespace).reverse.dropWhile Char.isWhitespace) with hX
  obtain ⟨pre, hpre⟩ := List.dropWhile_suffix (l := (l.dropWhile Char.isWhitespace).reverse)
    (p := Char.isWhitespace)
  rw [← hX] at hpre
  have hXne : X ≠ [] := by
    intro h0; rw [h0] at ha; simp at ha
  have hlast : ((l.dropWhile Char.isWhitespace).reverse).getLast? = some a := by
    rw [← hpre, List.getLast?_append]
    rw [ha]
    rfl
  rw [List.getLast?_reverse] at hlast
  have hh := List.head?_dropWhile_not Char.isWhitespace l
  rw [hlast] at hh
  exact hh

theorem getLast?_trimChars_not_ws (l : List Char) :
    ∀ a ∈ (trimChars l).getLast?, a.isWhitespace = false := by
  intro a ha
  unfold trimChars at ha
  rw [List.getLast?_reverse] at ha
  have hh := List.head?_dropWhile_not Char.isWhitespace (l.dropWhile Char.isWhitespace).reverse
  rw [ha] at hh
  exact hh

theorem trimChars_eq_self (l : List Char)
    (h1 : ∀ a ∈ l.head?, a.isWhitespace = false)
    (h2 : ∀ a ∈ l.getLast?, a.isWhitespace = false) : trimChars l = l := by
  unfold trimChars
  rw [dropWhile_eq_self_of_head _ _ h1]
  rw [dropWhile_eq_self_of_head _ _ (by simpa using h2)]
  exact List.reverse_reverse l

theorem trimChars_map_trimChars (l : List Char) :
    trimChars ((trimChars l).map lowerUnderscore) = (trimChars l).map lowerUnderscore := by
  apply trimChars_eq_self
  · intro a ha
    rw [List.head?_map] at ha
    obtain ⟨b, hb, hba⟩ := Option.map_eq_some'.1 ha
    subst hba
    exact lowerUnderscore_not_ws (head?_trimChars_not_ws l b hb)
  · intro a ha
    rw [List.getLast?_map] at ha
    obtain ⟨b, hb, hba⟩ := Option.map_eq_some'.1 ha
    subst hba
    exact lowerUnderscore_not_ws (getLast?_trimChars_not_ws l b hb)

theorem normalize_header_idem (s : String) :
    normalize_header (normalize_header s) = normalize_header s := by
  unfold normalize_header
  have htl : (String.mk ((trimChars s.toList).map lowerUnderscore)).toList
      = (trimChars s.toList).map lowerUnderscore := rfl
  rw [htl, trimChars_map_trimChars, List.map_map]
  congr 1
  apply List.map_congr_left
  intro c _
  exact lowerUnderscore_idem c

/-! ### Deduplication lemmas -/

theorem dedupFilter_sublist {α : Type} [DecidableEq α] (l : List α) :
    List.Sublist (dedupFilter l) l := by
  induction l using dedupFilter.induct with
  | case1 => simp [dedupFilter]
  | case2 a l ih =>
    rw [dedupFilter]
    exact (ih.trans (List.filter_sublist l)).cons₂ a

theorem mem_dedupFilter {α : Type} [DecidableEq α] {a : α} {l : List α} :
    a ∈ dedupFilter l ↔ a ∈ l := by
  induction l using dedupFilter.induct with
  | case1 => simp [dedupFilter]
  | case2 b l ih =>
    rw [dedupFilter]
    by_cases hab : a = b
    · subst hab; simp
    · simp only [List.mem_cons, ih, List.mem_filter, hab, false_or]
      simp [hab]

theorem nodup_dedupFilter {α : Type} [DecidableEq α] (l : List α) :
    (dedupFilter l).Nodup := by
  induction l using dedupFilter.induct with
  | case1 => simp [dedupFilter]
  | case2 a l ih =>
    rw [dedupFilter]
    refine List.Nodup.cons ?_ ih
    intro hmem
    rw [mem_dedupFilter, List.mem_filter] at hmem
    simp at hmem

theorem dedupFilter_eq_self_of_nodup {α : Type} [DecidableEq α] {l : List α}
    (h : l.Nodup) : dedupFilter l = l := by
  induction l using dedupFilter.induct with
  | case1 => rw [dedupFilter]
  | case2 a l ih =>
    rw [dedupFilter]
    have hfa : l.filter (fun b => b ≠ a) = l := by
      apply List.filter_eq_self.2
      intro b hb
      simp only [ne_eq, decide_eq_true_eq]
      intro hba
      subst hba
      exact (List.nodup_cons.1 h).1 hb
    rw [hfa] at ih ⊢
    rw [ih (List.nodup_cons.1 h).2]

theorem dedupAux_eq_dedupFilter {α : Type} [DecidableEq α] (l : List α) :
    ∀ seen : List α, dedupAux seen l = dedupFilter (l.filter (fun b => b ∉ seen)) := by
  induction l with
  | nil => intro seen; rw [List.filter_nil, dedupAux, dedupFilter]
  | cons a l ih =>
    intro seen
    by_cases ha : a ∈ seen
    · rw [dedupAux, if_pos ha, List.filter_cons, if_neg (by simp [ha]), ih]
    · rw [dedupAux, if_neg ha, List.filter_cons, if_pos (by simp [ha]), ih (a :: seen)]
      rw [show dedupFilter (a :: List.filter (fun b => decide (b ∉ seen)) l)
          = a :: dedupFilter ((List.filter (fun b => decide (b ∉ seen)) l).filter
              (fun b => b ≠ a)) from by rw [dedupFilter]]
      rw [List.filter_filter]
      apply congrArg
      apply congrArg (dedupFilter)
      apply List.filter_congr
      intro b _
      by_cases h1 : b = a <;> by_cases h2 : b ∈ seen <;> simp [h1, h2]

theorem dedupF_eq_dedupFilter {α : Type} [DecidableEq α] (l : List α) :
    dedupF l = dedupFilter l := by
  rw [dedupF, dedupAux_eq_dedupFilter l []]
  rw [List.filter_eq_self.2 (by intro b _; simp)]

theorem dedupF_sublist {α : Type} [DecidableEq α] (l : List α) :
    List.Sublist (dedupF l) l := by
  rw [dedupF_eq_dedupFilter]
  exact dedupFilter_sublist l

theorem mem_dedupF {α : Type} [DecidableEq α] {a : α} {l : List α} :
    a ∈ dedupF l ↔ a ∈ l := by
  rw [dedupF_eq_dedupFilter]
  exact mem_dedupFilter

theorem nodup_dedupF {α : Type} [DecidableEq α] (l : List α) :
    (dedupF l).Nodup := by
  rw [dedupF_eq_dedupFilter]
  exact nodup_dedupFilter l

theorem dedupF_eq_self_of_nodup {α : Type} [DecidableEq α] {l : List α}
    (h : l.Nodup) : dedupF l = l := by
  rw [dedupF_eq_dedupFilter]
  exact dedupFilter_eq_self_of_nodup h

theorem dedupAux_eq_keepFirstAux {α : Type} [DecidableEq α] (l : List α) :
    ∀ seen earlier : List α, (∀ x, x ∈ seen ↔ x ∈ earlier) →
      dedupAux seen l = keepFirstAux earlier l := by
  induction l with
  | nil => intro seen earlier _; rfl
  | cons a l ih =>
    intro seen earlier hinv
    by_cases ha : a ∈ seen
    · rw [dedupAux, if_pos ha, keepFirstAux, if_pos ((hinv a).1 ha)]
      apply ih
      intro x
      constructor
      · intro hx
        exact List.mem_append.2 (Or.inl ((hinv x).1 hx))
      · intro hx
        rcases List.mem_append.1 hx with h | h
        · exact (hinv x).2 h
        · simp at h
          subst h
          exact ha
    · rw [dedupAux, if_neg ha, keepFirstAux, if_neg (fun hc => ha ((hinv a).2 hc))]
      apply congrArg
      apply ih
      intro x
      constructor
      · intro hx
        rcases List.mem_cons.1 hx with h | h
        · subst h; simp
        · exact List.mem_append.2 (Or.inl ((hinv x).1 h))
      · intro hx
        rcases List.mem_append.1 hx with h | h
        · exact List.mem_cons.2 (Or.inr ((hinv x).2 h))
        · simp at h
          subst h
          simp

theorem dedupF_eq_keepFirstSpec {α : Type} [DecidableEq α] (l : List α) :
    dedupF l = keepFirstSpec l :=
  dedupAux_eq_keepFirstAux l [] [] (fun _ => Iff.rfl)

/-! ### Title-case lemmas -/

theorem titleAux_idem (l : List Char) :
    ∀ prev : Bool, titleAux prev (titleAux prev l) = titleAux prev l := by
  induction l with
  | nil => intro prev; rfl
  | cons c cs ih =>
    intro prev
    by_cases hc : c.isAlpha
    · cases prev with
      | true => simp [titleAux, hc, isAlpha_toLower, toLower_toLower, ih]
      | false => simp [titleAux, hc, isAlpha_toUpper, toUpper_toUpper, ih]
    · simp [titleAux, hc, ih]

theorem pyTitle_idem (s : String) : pyTitle (pyTitle s) = pyTitle s := by
  unfold pyTitle
  have h : (String.mk (titleAux false s.toList)).toList = titleAux false s.toList := rfl
  rw [h, titleAux_idem]

theorem statusTitle_idem (c : Cell) : statusTitle (statusTitle c) = statusTitle c := by
  cases c <;> simp [statusTitle, pyTitle_idem]

/-! ### List.set and mapCol lemmas -/

theorem getD_set_self' {α : Type} (l : List α) (j : Nat) (v d : α) (h : j < l.length) :
    (l.set j v).getD j d = v := by
  simp [List.getD_eq_getElem?_getD, List.getElem?_set_self h]

theorem getD_set_ne' {α : Type} (l : List α) {i j : Nat} (v d : α) (h : j ≠ i) :
    (l.set j v).getD i d = l.getD i d := by
  simp [List.getD_eq_getElem?_getD, List.getElem?_set_ne h]

theorem set_getD_self {α : Type} (l : List α) (j : Nat) (d : α) (h : j < l.length) :
    l.set j (l.getD j d) = l := by
  apply List.ext_getElem?
  intro i
  by_cases hij : i = j
  · subst hij
    rw [List.getElem?_set_self h, List.getD_eq_getElem?_getD, List.getElem?_eq_getElem h]
    rfl
  · exact List.getElem?_set_ne (fun hh => hij hh.symm)

theorem set_oob {α : Type} (l : List α) (j : Nat) (v : α) (h : l.length ≤ j) :
    l.set j v = l := List.set_eq_of_length_le h

/-! ### Pipeline structural lemmas -/

theorem getD_oob {α : Type} (l : List α) (j : Nat) (d : α) (h : l.length ≤ j) :
    l.getD j d = d := by
  simp [List.getD_eq_getElem?_getD, List.getElem?_eq_none h]

theorem lt_length_of_getD_ne {α : Type} {l : List α} {j : Nat} {d : α}
    (h : l.getD j d ≠ d) : j < l.length := by
  by_contra hlt
  exact h (getD_oob l j d (by omega))

theorem mem_mapCol {j : Nat} {f : Cell → Cell} {rows : List (List Cell)} {r' : List Cell} :
    r' ∈ mapCol j f rows ↔ ∃ r ∈ rows, r' = r.set j (f (r.getD j Cell.missing)) := by
  simp only [mapCol, List.mem_map]
  constructor
  · rintro ⟨r, hr, he⟩; exact ⟨r, hr, he.symm⟩
  · rintro ⟨r, hr, he⟩; exact ⟨r, hr, he.symm⟩

theorem length_mapCol (j : Nat) (f : Cell → Cell) (rows : List (List Cell)) :
    (mapCol j f rows).length = rows.length := by
  simp [mapCol]

theorem mapCol_frame {j : Nat} {f : Cell → Cell} {rows : List (List Cell)} {r' : List Cell}
    (h : r' ∈ mapCol j f rows) :
    ∃ r ∈ rows, r'.length = r.length ∧
      ∀ k, k ≠ j → r'.getD k Cell.missing = r.getD k Cell.missing := by
  obtain ⟨r, hr, he⟩ := mem_mapCol.1 h
  refine ⟨r, hr, ?_, ?_⟩
  · rw [he, List.length_set]
  · intro k hk
    rw [he, getD_set_ne' _ _ _ (fun hh => hk hh.symm)]

theorem filterMap_eq_self_of_forall {α : Type} (l : List α) (f : α → Option α)
    (h : ∀ a ∈ l, f a = some a) : l.filterMap f = l := by
  induction l with
  | nil => rfl
  | cons a l ih =>
    rw [List.filterMap_cons, h a (List.mem_cons_self a l),
      ih (fun b hb => h b (List.mem_cons_of_mem _ hb))]

theorem dateStage_eq_filterMap (j : Nat) (rows : List (List Cell)) :
    dateStage j rows = rows.filterMap
      (fun r => (parseDate (r.getD j Cell.missing)).map (fun d => r.set j (Cell.date d))) := by
  induction rows with
  | nil => rfl
  | cons r rows ih =>
    unfold dateStage dropnaCol toDatetimeCol mapCol at ih ⊢
    simp only [List.map_cons, List.filter_cons, List.filterMap_cons]
    cases hp : parseDate (r.getD j Cell.missing) with
    | none =>
      have hcell : (r.set j Cell.missing).getD j Cell.missing = Cell.missing := by
        by_cases hj : j < r.length
        · rw [getD_set_self' _ _ _ _ hj]
        · rw [set_oob _ _ _ (by omega), getD_oob _ _ _ (by omega)]
      simp only [List.getD_eq_getElem?_getD, ne_eq, decide_not] at hcell ih
      simp [hp, hcell, ih]
    | some d =>
      have hj : j < r.length := by
        apply lt_length_of_getD_ne
        intro hm
        rw [hm] at hp
        exact Option.noConfusion hp
      have hcell : (r.set j (Cell.date d)).getD j Cell.missing = Cell.date d :=
        getD_set_self' _ _ _ _ hj
      simp only [List.getD_eq_getElem?_getD, ne_eq, decide_not] at hcell ih
      simp [hp, hcell, ih]

theorem mem_dateStage {j : Nat} {rows : List (List Cell)} {r' : List Cell} :
    r' ∈ dateStage j rows ↔
      ∃ r ∈ rows, ∃ d, parseDate (r.getD j Cell.missing) = some d ∧
        r' = r.set j (Cell.date d) := by
  rw [dateStage_eq_filterMap]
  simp only [List.mem_filterMap, Option.map_eq_some']
  constructor
  · rintro ⟨r, hr, d, hd, he⟩; exact ⟨r, hr, d, hd, he.symm⟩
  · rintro ⟨r, hr, d, hd, he⟩; exact ⟨r, hr, d, hd, he.symm⟩

theorem dateStage_frame {j : Nat} {rows : List (List Cell)} {r' : List Cell}
    (h : r' ∈ dateStage j rows) :
    ∃ r ∈ rows, r'.length = r.length ∧
      ∀ k, k ≠ j → r'.getD k Cell.missing = r.getD k Cell.missing := by
  obtain ⟨r, hr, d, _, he⟩ := mem_dateStage.1 h
  refine ⟨r, hr, ?_, ?_⟩
  · rw [he, List.length_set]
  · intro k hk
    rw [he, getD_set_ne' _ _ _ (fun hh => hk hh.symm)]

theorem date_cell_of_mem_dateStage {j : Nat} {rows : List (List Cell)} {r' : List Cell}
    (h : r' ∈ dateStage j rows) :
    ∃ d, r'.getD j Cell.missing = Cell.date d := by
  obtain ⟨r, _, d, hd, he⟩ := mem_dateStage.1 h
  have hj : j < r.length := by
    apply lt_length_of_getD_ne
    intro hm
    rw [hm] at hd
    exact Option.noConfusion hd
  exact ⟨d, by rw [he, getD_set_self' _ _ _ _ hj]⟩

theorem indexOf_ne_of_mem {a b : String} {hs : List String} (ha : a ∈ hs) (hab : a ≠ b) :
    hs.indexOf a ≠ hs.indexOf b := by
  by_cases hb : b ∈ hs
  · intro h
    exact hab ((List.indexOf_inj ha hb).1 h)
  · have h1 : hs.indexOf a < hs.length := List.indexOf_lt_length.2 ha
    have h2 : hs.indexOf b = hs.length := List.indexOf_of_not_mem hb
    omega

theorem map_eq_self_of_forall {α : Type} (l : List α) (f : α → α)
    (h : ∀ a ∈ l, f a = a) : l.map f = l :=
  (List.map_congr_left h).trans (List.map_id l)

theorem coerceAmount_is_num (c : Cell) : ∃ q, coerceAmount c = Cell.num q := by
  cases c with
  | text s =>
    cases h : toNumeric (stripCommas s) with
    | none => exact ⟨0, by simp [coerceAmount, h]⟩
    | some q => exact ⟨q, by simp [coerceAmount, h]⟩
  | num q => exact ⟨q, rfl⟩
  | date d => exact ⟨0, rfl⟩
  | missing => exact ⟨0, rfl⟩

theorem stageAmount_frame {hs : List String} {rows : List (List Cell)} {r' : List Cell}
    (h : r' ∈ stageAmount hs rows) :
    ∃ r ∈ rows, r'.length = r.length ∧
      ∀ k, k ≠ hs.indexOf "amount" → r'.getD k Cell.missing = r.getD k Cell.missing := by
  unfold stageAmount at h
  by_cases hA : "amount" ∈ hs
  · rw [if_pos hA] at h
    obtain ⟨r, hr, hlen, hframe⟩ := mapCol_frame h
    exact ⟨r, hr, hlen, hframe⟩
  · rw [if_neg hA] at h
    exact ⟨r', h, rfl, fun k _ => rfl⟩

theorem stageStatus_frame {hs : List String} {rows : List (List Cell)} {r' : List Cell}
    (h : r' ∈ stageStatus hs rows) :
    ∃ r ∈ rows, r'.length = r.length ∧
      ∀ k, k ≠ hs.indexOf "status" → r'.getD k Cell.missing = r.getD k Cell.missing := by
  unfold stageStatus at h
  by_cases hS : "status" ∈ hs
  · rw [if_pos hS] at h
    obtain ⟨r, hr, hlen, hframe⟩ := mapCol_frame h
    exact ⟨r, hr, hlen, hframe⟩
  · rw [if_neg hS] at h
    exact ⟨r', h, rfl, fun k _ => rfl⟩

theorem stageDate_frame {hs : List String} {rows : List (List Cell)} {r' : List Cell}
    (h : r' ∈ stageDate hs rows) :
    ∃ r ∈ rows, r'.length = r.length ∧
      ∀ k, k ≠ hs.indexOf "date" → r'.getD k Cell.missing = r.getD k Cell.missing := by
  unfold stageDate at h
  by_cases hD : "date" ∈ hs
  · rw [if_pos hD] at h
    obtain ⟨r, hr, hlen, hframe⟩ := dateStage_frame h
    exact ⟨r, hr, hlen, hframe⟩
  · rw [if_neg hD] at h
    exact ⟨r', h, rfl, fun k _ => rfl⟩

/-- Every output row traces back to an input row of the same length, with
every cell outside the three treated columns untouched. -/
theorem cleanRows_frame {hs : List String} {rows : List (List Cell)} {r' : List Cell}
    (h : r' ∈ cleanRows hs rows) :
    ∃ r ∈ rows, r'.length = r.length ∧
      ∀ k, k ≠ hs.indexOf "amount" → k ≠ hs.indexOf "status" → k ≠ hs.indexOf "date" →
        r'.getD k Cell.missing = r.getD k Cell.missing := by
  unfold cleanRows at h
  obtain ⟨r3, h3, hlen3, hf3⟩ := stageDate_frame h
  obtain ⟨r2, h2, hlen2, hf2⟩ := stageStatus_frame h3
  obtain ⟨r1, h1, hlen1, hf1⟩ := stageAmount_frame h2
  refine ⟨r1, mem_dedupF.1 h1, by omega, ?_⟩
  intro k hkA hkS hkD
  rw [hf3 k hkD, hf2 k hkS, hf1 k hkA]

/-- After the pipeline, the status column (when present) is a fixed point of
the title-casing map: `.str.title()` leaves it unchanged. -/
theorem cleanRows_status_canonical {hs : List String} {rows : List (List Cell)}
    (hS : "status" ∈ hs) :
    ∀ r' ∈ cleanRows hs rows,
      statusTitle (r'.getD (hs.indexOf "status") Cell.missing)
        = r'.getD (hs.indexOf "status") Cell.missing := by
  intro r' h
  unfold cleanRows at h
  have hSD : hs.indexOf "status" ≠ hs.indexOf "date" :=
    indexOf_ne_of_mem hS (by decide)
  obtain ⟨r2, h2, _, hf2⟩ := stageDate_frame h
  rw [hf2 _ hSD]
  unfold stageStatus at h2
  rw [if_pos hS] at h2
  obtain ⟨r, _, he⟩ := mem_mapCol.1 h2
  by_cases hj : hs.indexOf "status" < r.length
  · rw [he, getD_set_self' _ _ _ _ hj, statusTitle_idem]
  · rw [he, set_oob _ _ _ (by omega), getD_oob _ _ _ (by omega)]
    rfl

/-- After the pipeline, the amount column (when present) holds a number in
every row wide enough to reach it. -/
theorem cleanRows_amount_canonical {hs : List String} {rows : List (List Cell)}
    (hA : "amount" ∈ hs) :
    ∀ r' ∈ cleanRows hs rows,
      (∃ q, r'.getD (hs.indexOf "amount") Cell.missing = Cell.num q) ∨
        r'.length ≤ hs.indexOf "amount" := by
  intro r' h
  unfold cleanRows at h
  have hAD : hs.indexOf "amount" ≠ hs.indexOf "date" :=
    indexOf_ne_of_mem hA (by decide)
  have hAS : hs.indexOf "amount" ≠ hs.indexOf "status" :=
    indexOf_ne_of_mem hA (by decide)
  obtain ⟨r3, h3, hlen3, hf3⟩ := stageDate_frame h
  obtain ⟨r2, h2, hlen2, hf2⟩ := stageStatus_frame h3
  rw [hf3 _ hAD, hf2 _ hAS]
  unfold stageAmount at h2
  rw [if_pos hA] at h2
  obtain ⟨r, _, he⟩ := mem_mapCol.1 h2
  by_cases hj : hs.indexOf "amount" < r.length
  · left
    rw [he, getD_set_self' _ _ _ _ hj]
    exact coerceAmount_is_num _
  · right
    rw [he, set_oob _ _ _ (by omega)] at hlen2
    omega

/-- After the pipeline, the date column (when present) holds a parsed
calendar date in every row. -/
theorem cleanRows_date_canonical {hs : List String} {rows : List (List Cell)}
    (hD : "date" ∈ hs) :
    ∀ r' ∈ cleanRows hs rows,
      ∃ d, r'.getD (hs.indexOf "date") Cell.missing = Cell.date d := by
  intro r' h
  unfold cleanRows stageDate at h
  rw [if_pos hD] at h
  exact date_cell_of_mem_dateStage h

theorem cleanRows_length_le (hs : List String) (rows : List (List Cell)) :
    (cleanRows hs rows).length ≤ rows.length := by
  have h1 : (dedupF rows).length ≤ rows.length := (dedupF_sublist rows).length_le
  have h2 : (stageAmount hs (dedupF rows)).length = (dedupF rows).length := by
    unfold stageAmount
    by_cases hA : "amount" ∈ hs
    · rw [if_pos hA, length_mapCol]
    · rw [if_neg hA]
  have h3 : (stageStatus hs (stageAmount hs (dedupF rows))).length
      = (stageAmount hs (dedupF rows)).length := by
    unfold stageStatus
    by_cases hS : "status" ∈ hs
    · rw [if_pos hS, length_mapCol]
    · rw [if_neg hS]
  have h4 : (cleanRows hs rows).length
      ≤ (stageStatus hs (stageAmount hs (dedupF rows))).length := by
    unfold cleanRows stageDate
    by_cases hD : "date" ∈ hs
    · rw [if_pos hD, dateStage_eq_filterMap]
      exact List.length_filterMap_le _ _
    · rw [if_neg hD]
  omega

theorem cleanRows_idem_of_nodup (hs : List String) (rows : List (List Cell))
    (hnd : (cleanRows hs rows).Nodup) :
    cleanRows hs (cleanRows hs rows) = cleanRows hs rows := by
  set R := cleanRows hs rows with hR
  have hded : dedupF R = R := dedupF_eq_self_of_nodup hnd
  have hamt : stageAmount hs R = R := by
    unfold stageAmount
    by_cases hA : "amount" ∈ hs
    · rw [if_pos hA]
      unfold mapCol
      apply map_eq_self_of_forall
      intro r hr
      by_cases hj : hs.indexOf "amount" < r.length
      · rcases cleanRows_amount_canonical hA r (hR ▸ hr) with ⟨q, hq⟩ | hlen
        · rw [hq, show coerceAmount (Cell.num q) = Cell.num q from rfl, ← hq]
          exact set_getD_self _ _ _ hj
        · omega
      · exact set_oob _ _ _ (by omega)
    · rw [if_neg hA]
  have hsts : stageStatus hs R = R := by
    unfold stageStatus
    by_cases hS : "status" ∈ hs
    · rw [if_pos hS]
      unfold mapCol
      apply map_eq_self_of_forall
      intro r hr
      rw [cleanRows_status_canonical hS r (hR ▸ hr)]
      by_cases hj : hs.indexOf "status" < r.length
      · exact set_getD_self _ _ _ hj
      · exact set_oob _ _ _ (by omega)
    · rw [if_neg hS]
  have hdt : stageDate hs R = R := by
    unfold stageDate
    by_cases hD : "date" ∈ hs
    · rw [if_pos hD, dateStage_eq_filterMap]
      apply filterMap_eq_self_of_forall
      intro r hr
      obtain ⟨d, hd⟩ := cleanRows_date_canonical hD r (hR ▸ hr)
      have hj : hs.indexOf "date" < r.length :=
        lt_length_of_getD_ne (by rw [hd]; exact fun h => Cell.noConfusion h)
      rw [hd]
      simp only [parseDate, Option.map_some']
      rw [← hd]
      exact congrArg some (set_getD_self _ _ _ hj)
    · rw [if_neg hD]
  calc cleanRows hs R = stageDate hs (stageStatus hs (stageAmount hs (dedupF R))) := rfl
    _ = R := by rw [hded, hamt, hsts, hdt]

theorem normHeaders_clean_data (t : Table) :
    normHeaders (clean_data t).1 = normHeaders t := by
  show (t.headers.map normalize_header).map normalize_header = t.headers.map normalize_header
  rw [List.map_map]
  apply List.map_congr_left
  intro s _
  exact normalize_header_idem s

/-! ### The claims -/

/-- C1 (counterexample): the pipeline is not idempotent as claimed.  The
table with amount texts "1,000" and "1000" has distinct rows, so dedup
removes nothing, but coercion maps both to the number 1000; re-running the
pipeline on the output then removes one row, so the output changes. -/
theorem C1_counterexample :
    (clean_data (clean_data tDupAmount).1).1 ≠ (clean_data tDupAmount).1 := by
  decide

/-- C1 (amended): the pipeline is idempotent on every input whose first-run
output contains no duplicate rows; the stages after dedup can map distinct
rows to equal rows, and only then does a second run remove anything. -/
theorem C1_idempotent_on_nodup_output (t : Table)
    (h : (clean_data t).1.rows.Nodup) :
    (clean_data (clean_data t).1).1 = (clean_data t).1 := by
  have hh : normHeaders (clean_data t).1 = normHeaders t := normHeaders_clean_data t
  show (⟨normHeaders (clean_data t).1,
      cleanRows (normHeaders (clean_data t).1) (clean_data t).1.rows⟩ : Table)
    = (clean_data t).1
  rw [hh]
  show (⟨normHeaders t,
      cleanRows (normHeaders t) (cleanRows (normHeaders t) t.rows)⟩ : Table)
    = (clean_data t).1
  rw [cleanRows_idem_of_nodup _ _ h]
  rfl

/-- C1 (witness): the demo-style table has a duplicate-free output, and on
it the pipeline is idempotent. -/
theorem C1_idempotent_witness :
    (clean_data tWitness).1.rows.Nodup ∧
    (clean_data (clean_data tWitness).1).1 = (clean_data tWitness).1 :=
  ⟨by decide, C1_idempotent_on_nodup_output tWitness (by decide)⟩

/-- C2: when a date column exists, every output row holds a parsed calendar
date in the date column, and the date stage is exactly: keep each row whose
date cell parses, with the cell replaced by the parsed date, and drop every
other row (unparseable or missing dates included). -/
theorem C2_date_normalization (t : Table) (hD : "date" ∈ normHeaders t) :
    (∀ r ∈ (clean_data t).1.rows, ∃ d, r.getD (dateIdx t) Cell.missing = Cell.date d) ∧
    (∀ (j : Nat) (rows : List (List Cell)),
      dateStage j rows = rows.filterMap
        (fun r => (parseDate (r.getD j Cell.missing)).map (fun d => r.set j (Cell.date d)))) := by
  constructor
  · intro r hr
    exact cleanRows_date_canonical hD r hr
  · intro j rows
    exact dateStage_eq_filterMap j rows

/-- C2 (witness): on the demo-style table the date column of every output
row is a parsed date. -/
theorem C2_date_normalization_witness :
    "date" ∈ normHeaders tWitness ∧
    ∀ r ∈ (clean_data tWitness).1.rows,
      ∃ d, r.getD (dateIdx tWitness) Cell.missing = Cell.date d :=
  ⟨by decide, (C2_date_normalization tWitness (by decide)).1⟩

/-- C3: when an amount column exists, a numeric cell keeps its value, a text
cell is comma-stripped and parsed with a failed parse becoming 0, a missing
cell becomes 0, and on a well-formed table the amount column of every output
row is numeric. -/
theorem C3_amount_coercion (t : Table) (hA : "amount" ∈ normHeaders t)
    (hWF : t.WF) :
    (∀ r ∈ (clean_data t).1.rows, ∃ q, r.getD (amountIdx t) Cell.missing = Cell.num q) ∧
    (∀ q, coerceAmount (Cell.num q) = Cell.num q) ∧
    (∀ s, coerceAmount (Cell.text s) = Cell.num ((toNumeric (stripCommas s)).getD 0)) ∧
    coerceAmount Cell.missing = Cell.num 0 := by
  refine ⟨?_, fun q => rfl, ?_, rfl⟩
  · intro r hr
    rcases cleanRows_amount_canonical hA r hr with hq | hlen
    · exact hq
    · exfalso
      obtain ⟨r0, hr0, hlen0, _⟩ := cleanRows_frame hr
      have hwf0 : r0.length = t.headers.length := hWF r0 hr0
      have hidx : (normHeaders t).indexOf "amount" < (normHeaders t).length :=
        List.indexOf_lt_length.2 hA
      have hnh : (normHeaders t).length = t.headers.length := by
        unfold normHeaders
        rw [List.length_map]
      omega
  · intro s
    cases h : toNumeric (stripCommas s) with
    | none => simp [coerceAmount, h]
    | some q => simp [coerceAmount, h]

/-- C3 (witness): the demo-style table is well-formed, has an amount column,
and every output row holds a number there. -/
theorem C3_amount_coercion_witness :
    "amount" ∈ normHeaders tWitness ∧ tWitness.WF ∧
    ∀ r ∈ (clean_data tWitness).1.rows,
      ∃ q, r.getD (amountIdx tWitness) Cell.missing = Cell.num q :=
  ⟨by decide, by decide, (C3_amount_coercion tWitness (by decide) (by decide)).1⟩

/-- C4 (counterexample): the output can contain two fully equal rows.  The
distinct amount texts "2,500" and "2500" survive dedup, then both coerce to
the number 2500, so the final output holds two equal rows and the claimed
invariant fails at this input. -/
theorem C4_counterexample :
    ¬ ((clean_data tDupAmount2).1.rows.length ≤ tDupAmount2.rows.length ∧
       (clean_data tDupAmount2).1.rows.Nodup) := by
  decide

/-- C4 (amended): the row count never grows, and the table produced by the
dedup stage has no two equal rows; the stages after dedup may map distinct
rows to equal rows, so the final output can contain duplicates. -/
theorem C4_length_le_and_dedup_nodup (t : Table) :
    (clean_data t).1.rows.length ≤ t.rows.length ∧ (dedupF t.rows).Nodup :=
  ⟨cleanRows_length_le _ _, nodup_dedupF _⟩

/-- C5 (counterexample): `clean_data` does mutate the caller-supplied table:
line 40 renames its columns in place, so after the call the argument object
differs from the table that was passed in. -/
theorem C5_counterexample :
    clean_data_argAfter ⟨["Customer Name"], []⟩ ≠ ⟨["Customer Name"], []⟩ := by
  decide

/-- C5 (amended): the in-place mutation of the argument is exactly the
header renaming of line 40 - row data is never mutated - and the caller's
table stays intact only because the call site (line 98) passes a copy, so
the protection is enforced by the caller, not at the pipeline entry point;
a second call mutates nothing further. -/
theorem C5_argument_mutation (t : Table) :
    (clean_data_argAfter t).rows = t.rows ∧
    (clean_data_argAfter t).headers = t.headers.map normalize_header ∧
    clean_data_callSite t = clean_data t ∧
    clean_data_argAfter (clean_data_argAfter t) = clean_data_argAfter t := by
  refine ⟨rfl, rfl, rfl, ?_⟩
  show (⟨(t.headers.map normalize_header).map normalize_header, t.rows⟩ : Table)
    = ⟨t.headers.map normalize_header, t.rows⟩
  rw [List.map_map]
  congr 1
  apply List.map_congr_left
  intro s _
  exact normalize_header_idem s

/-- C6 (counterexample): the status stage applies Python `str.title`, whose
word boundaries sit at every non-letter character; on "semi-paid" the code
produces "Semi-Paid", not the whitespace-word title case "Semi-paid" the
claim describes. -/
theorem C6_counterexample :
    (clean_data tSemiPaid).1.rows = [[Cell.text "Semi-Paid"]] ∧
    (clean_data tSemiPaid).1.rows ≠ [[Cell.text (titleSpecWs "semi-paid")]] :=
  ⟨by decide, by decide⟩

/-- C6 (amended): when a status column exists the stage removes no rows and
maps each text cell to its Python title case (a new word starts at every
non-letter character, so "PAID" becomes "Paid" and "pending" becomes
"Pending"); after the pipeline the status column is a fixed point of the
title-casing map. -/
theorem C6_status_title (t : Table) (hS : "status" ∈ normHeaders t) :
    (∀ rows, (stageStatus (normHeaders t) rows).length = rows.length) ∧
    (∀ s, statusTitle (Cell.text s) = Cell.text (pyTitle s)) ∧
    (pyTitle "PAID" = "Paid" ∧ pyTitle "pending" = "Pending") ∧
    (∀ r ∈ (clean_data t).1.rows,
      statusTitle (r.getD (statusIdx t) Cell.missing)
        = r.getD (statusIdx t) Cell.missing) := by
  refine ⟨?_, fun s => rfl, ⟨by decide, by decide⟩, ?_⟩
  · intro rows
    unfold stageStatus
    rw [if_pos hS, length_mapCol]
  · intro r hr
    exact cleanRows_status_canonical hS r hr

/-- C6 (witness): on the demo-style table the status column of every output
row is already in canonical title case. -/
theorem C6_status_title_witness :
    "status" ∈ normHeaders tWitness ∧
    ∀ r ∈ (clean_data tWitness).1.rows,
      statusTitle (r.getD (statusIdx tWitness) Cell.missing)
        = r.getD (statusIdx tWitness) Cell.missing :=
  ⟨by decide, (C6_status_title tWitness (by decide)).2.2.2⟩

/-- C7: dedup removes exactly the rows equal to an earlier row keeping first
occurrences (the seen-set implementation equals the earlier-rows contract),
the survivors keep their relative order, the log reports the exact count,
and the 50-plus-5-duplicates table comes out with 50 rows and the log line
"✅ Removed 5 duplicate rows.". -/
theorem C7_deduplication (t : Table) :
    dedupF t.rows = keepFirstSpec t.rows ∧
    List.Sublist (dedupF t.rows) t.rows ∧
    (dedupF t.rows).Nodup ∧
    (clean_data t).2.getD 1 "" =
      "✅ Removed " ++ toString (t.rows.length - (dedupF t.rows).length)
        ++ " duplicate rows." ∧
    (clean_data tFifty).1.rows.length = 50 ∧
    (clean_data tFifty).2.getD 1 "" = "✅ Removed 5 duplicate rows." :=
  ⟨dedupF_eq_keepFirstSpec _, dedupF_sublist _, nodup_dedupF _, rfl,
   by decide, by decide⟩

/-- C8: the header stage leaves the row data untouched and renames every
column by strip, lower-case and space-to-underscore; in particular
" Customer Name " becomes "customer_name". -/
theorem C8_header_normalization (t : Table) :
    (clean_data_argAfter t).rows = t.rows ∧
    (clean_data t).1.headers = t.headers.map normalize_header ∧
    normalize_header " Customer Name " = "customer_name" :=
  ⟨rfl, rfl, by decide⟩

/-- C9: the log is exactly one line for the header stage, one for dedup with
the removed count, then one line per column stage whose column exists, in
stage order; a missing column contributes no line, so the log has between 2
and 5 entries. -/
theorem C9_stage_skipping_and_log (t : Table) :
    (clean_data t).2 =
      ["✅ Standardized column headers (lowercase, no spaces).",
       "✅ Removed " ++ toString (t.rows.length - (dedupF t.rows).length)
         ++ " duplicate rows."]
      ++ (if "amount" ∈ normHeaders t then
            ["✅ Cleaned \x27Amount\x27 column (removed commas, converted text to numbers)."]
          else [])
      ++ (if "status" ∈ normHeaders t then
            ["✅ Standardized \x27Status\x27 column casing."]
          else [])
      ++ (if "date" ∈ normHeaders t then
            ["✅ Parsed mixed Date formats into ISO standard (YYYY-MM-DD)."]
          else []) ∧
    2 ≤ (clean_data t).2.length ∧ (clean_data t).2.length ≤ 5 := by
  have hlen : (clean_data t).2.length =
      2 + ((if "amount" ∈ normHeaders t then 1 else 0)
        + ((if "status" ∈ normHeaders t then 1 else 0)
        + (if "date" ∈ normHeaders t then 1 else 0))) := by
    show (cleanLog (normHeaders t) t.rows).length = _
    unfold cleanLog
    simp only [List.length_append, apply_ite List.length, List.length_cons,
      List.length_nil, List.length_singleton]
    split_ifs <;> rfl
  refine ⟨rfl, ?_, ?_⟩
  · split_ifs at hlen <;> omega
  · split_ifs at hlen <;> omega

/-- C10: the output has the same columns as the input in the same order,
renamed only by the header normalization; every output row stems from an
input row of the same length, with every cell outside the amount, status
and date columns unchanged. -/
theorem C10_column_preservation (t : Table) :
    (clean_data t).1.headers = t.headers.map normalize_header ∧
    ∀ r' ∈ (clean_data t).1.rows, ∃ r ∈ t.rows, r'.length = r.length ∧
      ∀ k, k ≠ amountIdx t → k ≠ statusIdx t → k ≠ dateIdx t →
        r'.getD k Cell.missing = r.getD k Cell.missing := by
  refine ⟨rfl, ?_⟩
  intro r' hr'
  exact cleanRows_frame hr'

/-- C10 (witness): the single output row of the demo-style table stems from
an input row of the same length agreeing outside the treated columns. -/
theorem C10_column_preservation_witness :
    ∃ r ∈ tWitness.rows,
      ([Cell.text "a", Cell.num 1000, Cell.text "Paid",
        Cell.date (2024, 1, 1)] : List Cell).length = r.length ∧
      ∀ k, k ≠ amountIdx tWitness → k ≠ statusIdx tWitness → k ≠ dateIdx tWitness →
        ([Cell.text "a", Cell.num 1000, Cell.text "Paid",
          Cell.date (2024, 1, 1)] : List Cell).getD k Cell.missing
          = r.getD k Cell.missing :=
  (C10_column_preservation tWitness).2 _ (by decide)
